import Mathlib

/-!
Shallow embedding of the resume-rag matching pipeline
(src/services/MatchingService.ts, src/services/ChatService.ts and the
score-normalization utility) together with proofs of the frozen claims.

JavaScript numbers are modelled as exact rationals (and, where the code
uses Math.exp, as reals); 32-bit integer coercions (`x & x`, `x << 5`)
are modelled explicitly on ℤ.
-/

/-- JS clamp Math.max(0, Math.min(1, x)) on rationals. -/
def clampQ (x : ℚ) : ℚ := max 0 (min 1 x)

/-- Math.round for the non-negative range used here: round half up. -/
noncomputable def jsRound (x : ℝ) : ℤ := ⌊x + 1 / 2⌋

/-- A JS number that may be non-finite: none models NaN or ±Infinity,
some q a finite double (idealized as a rational). -/
def JSNum : Type := Option ℚ

/-- Pinecone index metric, from src/unnamed/part_001. -/
inductive Metric : Type
  | cosine : Metric
  | euclidean : Metric
  | dotproduct : Metric

/-- normalizeScore from src/unnamed/part_001: guard non-finite input,
then per-metric affine remap clamped to the unit interval. -/
def normalizeScore (rawScore : JSNum) (metric : Metric) : ℚ :=
  match rawScore with
  | none => 0
  | some raw =>
    match metric with
    | Metric.cosine => max 0 (min 1 ((raw - 0.2) / 0.8))
    | Metric.dotproduct => max 0 (min 1 (raw / 40))
    | Metric.euclidean => max 0 (min 1 (1 - raw / 10))

/-- A scored chunk as handled by deduplicateChunks / mmrSelect:
chunkId, text snippet and normalized relevance score. -/
structure Chunk : Type where
  chunkId : String
  snippet : String
  score : ℚ
deriving DecidableEq

/-- JS String.prototype.toLowerCase, as the character-wise map (the same
function String.toLower computes through its byte-position loop). -/
def jsToLower (s : String) : String := String.mk (s.data.map Char.toLower)

/-- JS whitespace test used for the regexes \s and String.trim
(ASCII whitespace; enough for the modelled snippets). -/
def isWsChar (c : Char) : Bool := c = ' ' ∨ c = '\t' ∨ c = '\n' ∨ c = '\r' ∨ c = '\x0b' ∨ c = '\x0c'

/-- Helper for snippet normalization: collapse every run of whitespace
into one space, as in .replace with the pattern of one-or-more \s. -/
def collapseWs : List Char → List Char
  | [] => []
  | c :: rest =>
    if isWsChar c then ' ' :: collapseWs (rest.dropWhile isWsChar)
    else c :: collapseWs rest
termination_by l => l.length
decreasing_by
  · simp only [List.length_cons]
    exact Nat.lt_succ_of_le (List.dropWhile_suffix isWsChar).sublist.length_le
  · simp

/-- String.trim of JS on an already-collapsed char list: drop leading and
trailing whitespace. -/
def trimWs (l : List Char) : List Char :=
  ((l.dropWhile isWsChar).reverse.dropWhile isWsChar).reverse

/-- Snippet normalization in deduplicateChunks: toLowerCase, collapse
whitespace runs to one space, trim. -/
def normalizeSnippet (s : String) : String :=
  String.mk (trimWs (collapseWs (jsToLower s).data))

/-- ToInt32 coercion of JS bitwise operators: wrap into [-2^31, 2^31). -/
def toInt32 (n : ℤ) : ℤ := (n + 2 ^ 31) % 2 ^ 32 - 2 ^ 31

/-- One step of simpleHash: hash = ((hash << 5) - hash) + char, then
hash = hash & hash (a ToInt32 coercion). -/
def simpleHashStep (hash : ℤ) (c : ℕ) : ℤ := toInt32 (toInt32 (hash * 32) - hash + c)

/-- simpleHash of MatchingService/ChatService: a 31-multiplier rolling
hash over the character codes, kept in 32-bit signed range. The JS code
returns hash.toString(); since Int.repr is injective the ℤ value itself
is kept as the key. -/
def simpleHash (s : String) : ℤ := s.data.foldl (fun h c => simpleHashStep h c.toNat) 0

/-- The deduplication key of a chunk: simpleHash of its normalized snippet. -/
def chunkKey (c : Chunk) : ℤ := simpleHash (normalizeSnippet c.snippet)

/-- The loop of deduplicateChunks: seen is the set of keys already kept
(modelled as a list), a chunk is kept iff its key is unseen. -/
def dedupeGo (seen : List ℤ) : List Chunk → List Chunk
  | [] => []
  | c :: rest =>
    if chunkKey c ∈ seen then dedupeGo seen rest
    else c :: dedupeGo (chunkKey c :: seen) rest

/-- deduplicateChunks of MatchingService.ts (line 1665) and ChatService.ts
(line 191): hash-based first-occurrence filter. The second argument models
the unused `_threshold` parameter (default 0.95 at call sites). -/
def deduplicateChunks (chunks : List Chunk) (_thresholdArg : ℚ) : List Chunk :=
  dedupeGo [] chunks

/-- JS String.prototype.includes on char lists: needle occurs as a
contiguous substring of hay. -/
def containsSub (hay needle : List Char) : Bool :=
  match hay with
  | [] => needle.isEmpty
  | _ :: t => needle.isPrefixOf hay || containsSub t needle

/-- JS text.split on one-or-more whitespace: tokens between separator
runs, with empty tokens at the borders exactly as in JS. -/
def splitWsGo (acc : List Char) : List Char → List String
  | [] => [String.mk acc.reverse]
  | c :: rest =>
    if isWsChar c then
      String.mk acc.reverse :: splitWsGo [] (rest.dropWhile isWsChar)
    else splitWsGo (c :: acc) rest
termination_by l => l.length
decreasing_by
  · simp only [List.length_cons]
    exact Nat.lt_succ_of_le (List.dropWhile_suffix isWsChar).sublist.length_le
  · simp

/-- textSimilarity of MatchingService/ChatService: Jaccard similarity of
the word sets of the two lowercased snippets. -/
def textSimilarity (text1 text2 : String) : ℚ :=
  let words1 : Finset String := (splitWsGo [] (jsToLower text1).data).toFinset
  let words2 : Finset String := (splitWsGo [] (jsToLower text2).data).toFinset
  let inter : Finset String := words1 ∩ words2
  let uni : Finset String := words1 ∪ words2
  if 0 < uni.card then (inter.card : ℚ) / uni.card else 0

/-- MMR score of a candidate chunk against the already-selected list:
lambda * relevance - (1 - lambda) * max Jaccard similarity to selected. -/
def mmrScore (lambda : ℚ) (selected : List Chunk) (c : Chunk) : ℚ :=
  lambda * c.score -
    (1 - lambda) * (selected.foldl (fun m s => max m (textSimilarity c.snippet s.snippet)) 0)

/-- The inner argmax scan of mmrSelect: first index of the strictly
greatest MMR score wins (JS starts from bestScore = -Infinity, so the
head is taken as the initial best). Returns the best chunk and the other
chunks in their original order. -/
def pickBestGo (lambda : ℚ) (sel : List Chunk) (best : Chunk) (bestScore : ℚ)
    (acc : List Chunk) : List Chunk → Chunk × List Chunk
  | [] => (best, acc.reverse)
  | d :: rest =>
    if bestScore < mmrScore lambda sel d then
      pickBestGo lambda sel d (mmrScore lambda sel d) (best :: acc) rest
    else
      pickBestGo lambda sel best bestScore (d :: acc) rest

/-- The while loop of mmrSelect: need = topK - selected.length many more
greedy picks, stopping early when nothing remains. -/
def mmrLoop (lambda : ℚ) : ℕ → List Chunk → List Chunk → List Chunk
  | _, selected, [] => selected
  | 0, selected, _ :: _ => selected
  | need + 1, selected, h :: t =>
    match pickBestGo lambda selected h (mmrScore lambda selected h) [] t with
    | (best, others) => mmrLoop lambda need (selected ++ [best]) others

/-- mmrSelect of MatchingService.ts (line 1705) and ChatService.ts
(line 226): if the pool is not larger than topK return it unchanged;
otherwise sort by score descending, seed with the top chunk, then pick
greedily by MMR score. The `_queryVector` parameter of the source is
unused and omitted. -/
def mmrSelect (chunks : List Chunk) (topK : ℕ) (lambda : ℚ) : List Chunk :=
  if chunks.length ≤ topK then chunks
  else
    match chunks.mergeSort (fun a b => decide (b.score ≤ a.score)) with
    | [] => []
    | h :: t => mmrLoop lambda (topK - 1) [h] t

/-- The ten explicit positional weights of computeSemanticScoreWithBoosts. -/
def headWeights : List ℝ := [0.4, 0.25, 0.15, 0.1, 0.05, 0.025, 0.015, 0.01, 0.005, 0.003]

/-- Positional weight of chunk i: the table entry for i < 10, otherwise
the exponentially decaying tail Math.exp(-(i - 10) * 0.2) * 0.003
(Math.exp modelled as Real.exp). -/
noncomputable def weightAt (i : ℕ) : ℝ :=
  if i < 10 then headWeights.getD i 0
  else Real.exp (-((i : ℝ) - 10) * 0.2) * 0.003

/-- Clamp-then-filter step of computeSemanticScoreWithBoosts: clamp each
score to [0,1] and keep the ones at or above relevanceThreshold = 0.2. -/
def relevantOf (ms : List ℚ) : List ℚ :=
  (ms.map clampQ).filter (fun s => decide (0.2 ≤ s))

/-- chunksToUse of computeSemanticScoreWithBoosts: the first
min(20, length) relevant chunks. -/
def chunksToUse (ms : List ℚ) : List ℚ :=
  (relevantOf ms).take (min 20 (relevantOf ms).length)

/-- The weightedSum accumulation of the loop of
computeSemanticScoreWithBoosts, with i the running chunk index. -/
noncomputable def weightedSumGo : ℕ → List ℚ → ℝ
  | _, [] => 0
  | i, s :: rest => (s : ℝ) * weightAt i + weightedSumGo (i + 1) rest

/-- The totalWeight accumulation of the same loop. -/
noncomputable def totalWeightGo : ℕ → List ℚ → ℝ
  | _, [] => 0
  | i, _ :: rest => weightAt i + totalWeightGo (i + 1) rest

open Classical in
/-- Weighted mean of computeSemanticScoreWithBoosts:
weightedSum / totalWeight when totalWeight > 0, else 0. -/
noncomputable def semanticMean (l : List ℚ) : ℝ :=
  if 0 < totalWeightGo 0 l then weightedSumGo 0 l / totalWeightGo 0 l else 0

/-- Quality boost: zero unless at least 3 chunks score at or above 0.7,
otherwise the tiered bonus capped at 0.2. -/
def qualityBoost (l : List ℚ) : ℚ :=
  let high := (l.filter (fun s => decide (0.7 ≤ s))).length
  let veryHigh := (l.filter (fun s => decide (0.85 ≤ s))).length
  let excellent := (l.filter (fun s => decide (0.9 ≤ s))).length
  if 3 ≤ high then
    min 0.2 (high * 0.015 + veryHigh * 0.025 + excellent * 0.03)
  else 0

/-- Coverage boost: proportional to the number of chunks used out of 15,
capped at 0.05. -/
def coverageBoost (l : List ℚ) : ℚ :=
  min 0.05 ((l.length / 15 : ℚ) * 0.05)

open Classical in
/-- computeSemanticScoreWithBoosts of MatchingService.ts (line 1827):
weighted mean of the relevant chunk scores plus quality and coverage
boosts, with the anti-false-positive cap at 0.85 and a final clamp. When
no chunk is relevant, half of the clamped top score is returned. -/
noncomputable def computeSemanticScoreWithBoosts (ms : List ℚ) : ℝ :=
  if ms.length = 0 then 0
  else if (relevantOf ms).length = 0 then
    (clampQ (ms.headD 0) : ℝ) * 0.5
  else
    let u := chunksToUse ms
    let mean := semanticMean u
    let score : ℝ := mean + (qualityBoost u : ℝ) + (coverageBoost u : ℝ)
    let capped : ℝ := if 0.9 < score ∧ mean < 0.7 then 0.85 else score
    max 0 (min 1 capped)

/-- ASCII word character of the JS regex class \w. -/
def isWordChar (c : Char) : Bool :=
  ( 'a' ≤ c ∧ c ≤ 'z') ∨ ( 'A' ≤ c ∧ c ≤ 'Z') ∨ ( '0' ≤ c ∧ c ≤ '9') ∨ c = '_'

/-- normalizeSkillName of MatchingService.ts: lowercase, strip characters
outside \w and \s, then strip whitespace, hyphens and underscores, trim. -/
def normalizeSkillName (s : String) : String :=
  let kept := (jsToLower s).data.filter (fun c => isWordChar c || isWsChar c)
  let stripped := kept.filter (fun c => !(isWsChar c || c = '-' || c = '_'))
  String.mk (trimWs stripped)

/-- Whether the character at index k of l is a word character
(out of range counts as non-word, as at the ends of a JS string). -/
def isWordAt (l : List Char) (k : ℕ) : Bool := isWordChar (l.getD k ' ')

/-- JS regex word boundary \b at position k of l: exactly one of the
neighbouring characters is a word character. -/
def boundaryAt (l : List Char) (k : ℕ) : Bool :=
  ((decide (0 < k)) && isWordAt l (k - 1)) != isWordAt l k

/-- Test of the regex new RegExp(escaped term between two word
boundaries) on l: the literal term occurs at some position with a word
boundary on both sides. -/
def testWordBoundary (term l : List Char) : Bool :=
  (List.range (l.length + 1)).any fun i =>
    term.isPrefixOf (l.drop i) && boundaryAt l i && boundaryAt l (i + term.length)

/-- evidenceContainsSkillOrSynonym of MatchingService.ts (line 1782):
for the skill and each synonym, direct lowercase substring containment,
containment of the normalized forms, or a word-boundary regex match. -/
def evidenceContainsSkillOrSynonym (snippet skill : String) (synonyms : List String) : Bool :=
  let s := jsToLower snippet
  let allTerms := skill :: synonyms.filter (fun syn => decide (syn ≠ skill))
  allTerms.any fun term =>
    let termLower := jsToLower term
    let normalizedTerm := normalizeSkillName termLower
    let normalizedSnippet := normalizeSkillName s
    containsSub s.data termLower.data ||
    containsSub normalizedSnippet.data normalizedTerm.data ||
    testWordBoundary termLower.data s.data

/-- meanTopN of MatchingService.ts: mean of the first n scores of the
list (0 for the empty list). -/
def meanTopN (scores : List ℚ) (n : ℕ) : ℚ :=
  if scores.length = 0 then 0
  else (scores.take n).sum / ((scores.take n).length : ℚ)

/-- Per-skill result of matchSkillsSemantically: the retrieved evidence
chunks (after normalization, dedup and MMR) with the top similarity. -/
structure SemanticMatch : Type where
  similarity : ℚ
  evidenceChunks : List Chunk
deriving DecidableEq

/-- The per-skill body of the computeKeywordScore loop: a skill with a
semantic match holding at least one evidence chunk is matched iff the
mean of the first three evidence scores and the first evidence score
both clear the 0.6 thresholds, or one of the first five evidence
snippets lexically contains the skill or a synonym; otherwise missing. -/
def skillIsMatchedCore (skill : String) (synonyms : List String) (m : Option SemanticMatch) : Bool :=
  match m with
  | none => false
  | some sm =>
    match sm.evidenceChunks with
    | [] => false
    | e :: rest =>
      let aggScore := meanTopN ((e :: rest).map Chunk.score) 3
      let topScore := e.score
      let keywordMatch := ((e :: rest).take 5).any fun c =>
        evidenceContainsSkillOrSynonym c.snippet skill synonyms
      if 0.6 ≤ aggScore ∧ 0.6 ≤ topScore then true
      else keywordMatch

/-- The JD record fields computeKeywordScore and the years score read. -/
structure JDRecord : Type where
  topSkills : List String
  generalSkills : List String
  skillSynonyms : List (String × List String)
  requiredYears : Option ℕ

/-- Synonym lookup of the loop: skillSynonyms of the skill, or the
one-element list of the skill itself when the map has no entry. -/
def synonymsFor (jd : JDRecord) (skill : String) : List String :=
  (jd.skillSynonyms.lookup skill).getD [skill]

/-- One skill of the computeKeywordScore loop, with its synonym lookup
and its semantic-match lookup. -/
def skillMatchedIn (jd : JDRecord) (sem : String → Option SemanticMatch) (skill : String) : Bool :=
  skillIsMatchedCore skill (synonymsFor jd skill) (sem skill)

/-- Result triple of computeKeywordScore. -/
structure KeywordResult : Type where
  keywordScore : ℚ
  matchedSkills : List String
  missingSkills : List String

/-- computeKeywordScore of MatchingService.ts (line 1482) with the
database and Pinecone lookups abstracted into the sem map: partition all
required skills (top then general) by the per-skill match test, then the
weighted match ratio with top skills counting double. The source loop
pushes each skill into exactly one of the two lists in order, which is
the two filters below. -/
def computeKeywordScore (jd : JDRecord) (sem : String → Option SemanticMatch) : KeywordResult :=
  if jd.topSkills.length = 0 ∧ jd.generalSkills.length = 0 then ⟨0, [], []⟩
  else
    let allSkills := jd.topSkills ++ jd.generalSkills
    let matched := allSkills.filter (fun s => skillMatchedIn jd sem s)
    let missing := allSkills.filter (fun s => !skillMatchedIn jd sem s)
    let topMatched := (matched.filter (fun s => decide (s ∈ jd.topSkills))).length
    let genMatched := (matched.filter (fun s => decide (s ∉ jd.topSkills))).length
    let totalWeightedMatches : ℚ := topMatched * 2 + genMatched
    let totalWeightedSkills : ℚ := jd.topSkills.length * 2 + jd.generalSkills.length
    let score := if 0 < totalWeightedSkills then totalWeightedMatches / totalWeightedSkills else 0
    ⟨score, matched, missing⟩

/-- The scoring branch structure of computeYearsScore of
MatchingService.ts (line 1921): requiredYears absent or zero (falsy) is
vacuously satisfied; with a requirement but no extractable resume years
the score is zero; otherwise the resume/required ratio is banded. -/
def computeYearsScore (requiredYears : Option ℕ) (resumeYears : Option ℕ) : ℚ :=
  match requiredYears with
  | none => 1
  | some req =>
    if req = 0 then 1
    else
      match resumeYears with
      | none => 0
      | some ry =>
        let r : ℚ := (ry : ℚ) / (req : ℚ)
        if 1 ≤ r then 1
        else if 0.8 ≤ r then 0.9
        else if 0.6 ≤ r then 0.7
        else max 0 (r * 0.8)

/-- The weights argument of calculateMatch. -/
structure Weights : Type where
  semantic : ℚ
  keyword : ℚ
  years : ℚ

/-- Default weights of calculateMatch. -/
def defaultWeights : Weights := ⟨0.4, 0.55, 0.05⟩

/-- The fields of the calculateMatch result the claims are about. -/
structure MatchResultCore : Type where
  finalPercent : ℤ
  semanticScore : ℝ
  keywordScore : ℚ
  yearsScore : ℚ
  matchedSkills : List String
  missingSkills : List String

/-- Pure core of MatchingService.calculateMatch (line 1196): the
retrieval results enter as the normalized chunk scores, the per-skill
semantic matches and the extracted resume years; the final score is the
clamped weighted combination, rounded to a percent. -/
noncomputable def calculateMatchCore (w : Weights) (jd : JDRecord)
    (normalizedMatches : List ℚ) (sem : String → Option SemanticMatch)
    (resumeYears : Option ℕ) : MatchResultCore :=
  let semanticScore := computeSemanticScoreWithBoosts (normalizedMatches.take 20)
  let kw := computeKeywordScore jd sem
  let yearsScore := computeYearsScore jd.requiredYears resumeYears
  let finalScore : ℝ :=
    max 0 (min 1 ((w.semantic : ℝ) * semanticScore +
      (w.keyword : ℝ) * (kw.keywordScore : ℝ) + (w.years : ℝ) * (yearsScore : ℝ)))
  ⟨jsRound (finalScore * 100), semanticScore, kw.keywordScore, yearsScore,
    kw.matchedSkills, kw.missingSkills⟩

/-- ASCII digit test of the regex class \d. -/
def isDigitChar (c : Char) : Bool := '0' ≤ c ∧ c ≤ '9'

/-- Value of a digit string, as parseInt reads the capture groups. -/
def digitsToNat (l : List Char) : ℕ := l.foldl (fun n c => n * 10 + (c.toNat - '0'.toNat)) 0

/-- Greedy \s* of the regexes: drop leading whitespace. -/
def skipWs (l : List Char) : List Char := l.dropWhile isWsChar

/-- Drop a literal string from the front of the char list, if present. -/
def dropLit (p : String) (l : List Char) : Option (List Char) :=
  if p.data.isPrefixOf l then some (l.drop p.data.length) else none

/-- Tail of pattern one (of-group then experience/exp): both regex
backtracking branches of the optional group, where matching the
alternation experience-or-exp amounts to the prefix exp. -/
def expAfterOf (l : List Char) : Bool :=
  (match dropLit "of" l with
   | some l2 => "exp".data.isPrefixOf (skipWs l2)
   | none => false) || "exp".data.isPrefixOf l

/-- Suffix check of the pattern digits-years-of-experience, applied to
the characters after the digit run. -/
def pat1After (l : List Char) : Bool :=
  match dropLit "year" (skipWs l) with
  | none => false
  | some l2 =>
    match l2 with
    | 's' :: t => expAfterOf (skipWs t)
    | _ => expAfterOf (skipWs l2)

/-- Suffix check of the pattern digits-plus-years, applied to the
characters after the digit run. -/
def pat2After (l : List Char) : Bool :=
  match l with
  | '+' :: t => "year".data.isPrefixOf (skipWs t)
  | _ => "year".data.isPrefixOf (skipWs l)

/-- Suffix check of the pattern experience-colon-digits-years: after the
digits, optional whitespace then the literal year. -/
def pat3After (l : List Char) : Bool :=
  "year".data.isPrefixOf (skipWs l)

/-- Prefix check of the pattern experience-colon-digits: the characters
before the digit run must end in the literal experience followed by one
or more colon-or-whitespace characters. -/
def pat3Before (pre : List Char) : Bool :=
  let revPre := pre.reverse
  let clsRun := revPre.takeWhile (fun c => isWsChar c || c == ':')
  decide (0 < clsRun.length) &&
    "experience".data.reverse.isPrefixOf (revPre.drop clsRun.length)

/-- Suffix check of the pattern digits-y-o, applied to the characters
after the digit run (both branches of the optional dot). -/
def pat4After (l : List Char) : Bool :=
  match skipWs l with
  | 'y' :: t =>
    (match t with
     | '.' :: t2 => t2.headD ' ' == 'o'
     | _ => false) || t.headD ' ' == 'o'
  | _ => false

/-- Whether a maximal digit run starts at index i of the text. The /g
scans of the four year patterns find exactly the candidates whose digit
capture starts at such positions (a digit capture is always a maximal
run, since every pattern continues with a non-digit requirement). -/
def digitRunStartsAt (chars : List Char) (i : ℕ) : Bool :=
  isDigitChar (chars.getD i ' ') &&
    !(decide (0 < i) && isDigitChar (chars.getD (i - 1) ' '))

/-- All captured values of the four year regex families of
extractResumeYears / computeYearsScore, over the lowercased text. -/
def yearCandidates (chars : List Char) : List ℕ :=
  (List.range chars.length).filterMap fun i =>
    if digitRunStartsAt chars i then
      let run := (chars.drop i).takeWhile isDigitChar
      let after := (chars.drop i).dropWhile isDigitChar
      let pre := chars.take i
      if pat1After after || pat2After after || (pat3Before pre && pat3After after) ||
          pat4After after then
        some (digitsToNat run)
      else none
    else none

/-- The candidates the source accepts: strictly positive and at most 50. -/
def validYearCandidates (chars : List Char) : List ℕ :=
  (yearCandidates chars).filter (fun v => decide (0 < v) && decide (v ≤ 50))

/-- maxYears accumulation of the pattern loops: maximum accepted
candidate, 0 when there is none. -/
def maxPatternYears (chars : List Char) : ℕ :=
  (validYearCandidates chars).foldl max 0

/-- Four consecutive digits at the head of the list (the regex piece
d-four), returning them and the remainder. -/
def fourDigitsAt (l : List Char) : Option (List Char × List Char) :=
  match l with
  | a :: b :: c :: d :: rest =>
    if isDigitChar a && isDigitChar b && isDigitChar c && isDigitChar d then
      some ([a, b, c, d], rest)
    else none
  | _ => none

/-- The regex piece word-run, whitespace-run, four digits (both runs
maximal, which is the only way the greedy engine can match it). -/
def wordWsFourAt (l : List Char) : Option (List Char × List Char) :=
  let w := l.takeWhile isWordChar
  if w.length = 0 then none
  else
    let l2 := l.drop w.length
    let sp := l2.takeWhile isWsChar
    if sp.length = 0 then none
    else
      match fourDigitsAt (l2.drop sp.length) with
      | some (ds, rest) => some (w ++ sp ++ ds, rest)
      | none => none

/-- Dash class of the date-range pattern: hyphen, en dash or em dash. -/
def isDashChar (c : Char) : Bool := c == '-' || c == '–' || c == '—'

/-- After group one of the date-range pattern: optional whitespace, a
dash, optional whitespace, then group two (year, word-space-year,
present or current, tried in that order). Returns the group-two text
and the remaining characters. -/
def afterG1 (rest : List Char) : Option (String × List Char) :=
  match skipWs rest with
  | [] => none
  | c :: r2 =>
    if isDashChar c then
      let r3 := skipWs r2
      match fourDigitsAt r3 with
      | some (ds, rest2) => some (String.mk ds, rest2)
      | none =>
        match wordWsFourAt r3 with
        | some (m, rest2) => some (String.mk m, rest2)
        | none =>
          match dropLit "present" r3 with
          | some rest2 => some ("present", rest2)
          | none =>
            match dropLit "current" r3 with
            | some rest2 => some ("current", rest2)
            | none => none
    else none

/-- Group-one alternative two of the date-range pattern followed by the
rest of the pattern. -/
def matchRangeA2 (l : List Char) : Option (String × String × List Char) :=
  match wordWsFourAt l with
  | some (m, rest) =>
    match afterG1 rest with
    | some (g2, rem) => some (String.mk m, g2, rem)
    | none => none
  | none => none

/-- Date-range pattern match starting exactly at the head of l, with the
backtracking order of the engine: group-one alternative one (four
digits) first, falling back to alternative two. Returns both captures
and the remainder of the text. -/
def matchRangeAt (l : List Char) : Option (String × String × List Char) :=
  match fourDigitsAt l with
  | some (ds, rest) =>
    (match afterG1 rest with
     | some (g2, rem) => some (String.mk ds, g2, rem)
     | none => matchRangeA2 l)
  | none => matchRangeA2 l

/-- The /g scan of the date-range pattern: leftmost matches, resuming
after each match (fuelled by the text length; every match consumes at
least one character). -/
def scanRangesGo : ℕ → List Char → List (String × String)
  | 0, _ => []
  | _, [] => []
  | fuel + 1, c :: t =>
    match matchRangeAt (c :: t) with
    | some (g1, g2, rem) => (g1, g2) :: scanRangesGo fuel rem
    | none => scanRangesGo fuel t

/-- All date-range matches of the text, as capture pairs. -/
def dateRangeMatches (chars : List Char) : List (String × String) :=
  scanRangesGo chars.length chars

/-- Month names searched by extractMonth and the month-year scan. -/
def monthNames : List String :=
  ["january", "february", "march", "april", "may", "june",
   "july", "august", "september", "october", "november", "december"]

/-- Month abbreviations searched by extractMonth and the month-year scan. -/
def monthAbbr : List String :=
  ["jan", "feb", "mar", "apr", "may", "jun", "jul", "aug", "sep", "oct", "nov", "dec"]

/-- extractMonth of MatchingService.ts: first month index whose name or
abbreviation occurs in the lowercased string, none otherwise. The
month-year branch of extractYearsFromDates runs the same loop inline. -/
def extractMonth (str : String) : Option ℕ :=
  (List.range 12).find? fun i =>
    containsSub (jsToLower str).data (monthNames.getD i "").data ||
    containsSub (jsToLower str).data (monthAbbr.getD i "").data

/-- First four-consecutive-digit number in the string (the match of the
plain d-four regex on a capture), as used for start and end years. -/
def findFourGo : List Char → Option ℕ
  | [] => none
  | c :: t =>
    match fourDigitsAt (c :: t) with
    | some (ds, _) => some (digitsToNat ds)
    | none => findFourGo t

/-- First four-digit number of a string, none when there is none. -/
def firstFourDigitNum (s : String) : Option ℕ := findFourGo s.data

/-- Month contribution of one date-range match: start year and month
from group one, end from group two (present/current meaning now; a
month index of 0 is falsy in JS, so the or-11 default turns January
into 11), clamped below at zero. A group-one capture without four
digits is skipped by the source loop, contributing nothing. -/
def rangeMonths (now : ℕ × ℕ) (g1 g2 : String) : ℤ :=
  match firstFourDigitNum g1 with
  | none => 0
  | some startYear =>
    let startMonth : ℕ := (extractMonth g1).getD 0
    let endStr := jsToLower g2
    let endYM : ℕ × ℕ :=
      if endStr = "present" ∨ endStr = "current" then now
      else
        match firstFourDigitNum endStr with
        | some y =>
          (y, match extractMonth endStr with
              | some m => if m = 0 then 11 else m
              | none => 11)
        | none => now
    max 0 (((endYM.1 : ℤ) - (startYear : ℤ)) * 12 + ((endYM.2 : ℤ) - (startMonth : ℤ)))

/-- One alternative of the month-year pattern tried at the head of l:
the literal name, an optional dot, mandatory whitespace, four digits,
then a word boundary (next character not a word character). Returns the
captured name, the year value and the consumed length. -/
def tryMonthAlt (l : List Char) (nm : String) : Option (String × ℕ × ℕ) :=
  if nm.data.isPrefixOf l then
    let r1 := l.drop nm.data.length
    let r2 := match r1 with
      | '.' :: t => t
      | _ => r1
    let sp := r2.takeWhile isWsChar
    if sp.length = 0 then none
    else
      match fourDigitsAt (r2.drop sp.length) with
      | some (ds, rest) =>
        if isWordChar (rest.headD ' ') then none
        else some (nm, digitsToNat ds, nm.data.length + (r1.length - r2.length) + sp.length + 4)
      | none => none
  else none

/-- Month-year pattern match at index i of the text: a word boundary,
then the first alternative (full names before abbreviations, as in the
constructed regex) that completes. -/
def monthMatchAt (chars : List Char) (i : ℕ) : Option (String × ℕ × ℕ) :=
  if boundaryAt chars i then
    (monthNames ++ monthAbbr).findSome? (tryMonthAlt (chars.drop i))
  else none

/-- The /g scan of the month-year pattern over the whole text. -/
def scanMonthsGo (chars : List Char) : ℕ → ℕ → List (String × ℕ)
  | 0, _ => []
  | fuel + 1, i =>
    if i < chars.length then
      match monthMatchAt chars i with
      | some (nm, yr, len) => (nm, yr) :: scanMonthsGo chars fuel (i + len)
      | none => scanMonthsGo chars fuel (i + 1)
    else []

/-- All month-year matches of the text, as name-year pairs. -/
def monthYearMatches (chars : List Char) : List (String × ℕ) :=
  scanMonthsGo chars (chars.length + 1) 0

/-- The dates list built from the month-year matches: month resolved by
the inline name scan (same loop as extractMonth), year kept when between
1900 and one past the current year. -/
def monthYearDates (now : ℕ × ℕ) (chars : List Char) : List (ℕ × ℕ) :=
  (monthYearMatches chars).filterMap fun p =>
    match extractMonth p.1 with
    | some mi => if 1900 ≤ p.2 ∧ p.2 ≤ now.1 + 1 then some (p.2, mi) else none
    | none => none

/-- extractYearsFromDates of MatchingService.ts (line 1979): with date
ranges present, the rounded-up year total of their clamped month spans;
otherwise months elapsed since the earliest plausible month-year token,
rounded up to years; 0 when neither is found. Math.ceil of the month
total divided by 12 is the floor division of totalMonths plus 11. -/
def extractYearsFromDates (now : ℕ × ℕ) (chars : List Char) : ℤ :=
  let ranges := dateRangeMatches chars
  if ranges.length ≠ 0 then
    let totalMonths : ℤ := (ranges.map (fun p => rangeMonths now p.1 p.2)).sum
    (totalMonths + 11).fdiv 12
  else if (monthYearMatches chars).length = 0 then 0
  else
    let dates := monthYearDates now chars
    if dates.length = 0 then 0
    else
      let sorted := dates.mergeSort fun a b =>
        decide (a.1 < b.1 ∨ (a.1 = b.1 ∧ a.2 ≤ b.2))
      let earliest := sorted.headD (0, 0)
      let totalMonths : ℤ :=
        ((now.1 : ℤ) - (earliest.1 : ℤ)) * 12 + ((now.2 : ℤ) - (earliest.2 : ℤ))
      (totalMonths + 11).fdiv 12

/-- extractResumeYears of MatchingService.ts (line 1887), with the
database read abstracted to the optional raw text and the current date
passed explicitly: maximum accepted regex candidate, else the date
heuristics, and undefined (none) instead of zero. -/
def extractResumeYears (now : ℕ × ℕ) (rawText : Option String) : Option ℕ :=
  match rawText with
  | none => none
  | some txt =>
    if txt = "" then none
    else
      let chars := (jsToLower txt).data
      let patYears := maxPatternYears chars
      let total : ℤ := if patYears = 0 then extractYearsFromDates now chars else (patYears : ℤ)
      if 0 < total then some total.toNat else none

section DedupeLemmas

lemma dedupeGo_sublist (l : List Chunk) : ∀ seen, List.Sublist (dedupeGo seen l) l := by
  induction l with
  | nil => intro seen; simp [dedupeGo]
  | cons c rest ih =>
    intro seen
    simp only [dedupeGo]
    by_cases h : chunkKey c ∈ seen
    · rw [if_pos h]
      exact (ih seen).cons c
    · rw [if_neg h]
      exact (ih (chunkKey c :: seen)).cons₂ c

lemma dedupeGo_keys_not_seen (l : List Chunk) :
    ∀ seen k, k ∈ (dedupeGo seen l).map chunkKey → k ∉ seen := by
  induction l with
  | nil => intro seen k hk; simp [dedupeGo] at hk
  | cons c rest ih =>
    intro seen k hk
    simp only [dedupeGo] at hk
    by_cases h : chunkKey c ∈ seen
    · rw [if_pos h] at hk
      exact ih seen k hk
    · rw [if_neg h] at hk
      simp only [List.map_cons, List.mem_cons] at hk
      rcases hk with hk | hk
      · intro hs; exact h (hk ▸ hs)
      · intro hs
        exact ih (chunkKey c :: seen) k hk (List.mem_cons_of_mem _ hs)

lemma dedupeGo_keys_nodup (l : List Chunk) :
    ∀ seen, ((dedupeGo seen l).map chunkKey).Nodup := by
  induction l with
  | nil => intro seen; simp [dedupeGo]
  | cons c rest ih =>
    intro seen
    simp only [dedupeGo]
    by_cases h : chunkKey c ∈ seen
    · rw [if_pos h]; exact ih seen
    · rw [if_neg h]
      simp only [List.map_cons, List.nodup_cons]
      refine ⟨fun hmem => ?_, ih _⟩
      exact dedupeGo_keys_not_seen rest _ _ hmem (List.mem_cons_self _ _)

lemma dedupeGo_filter_key (l : List Chunk) :
    ∀ seen k,
      (k ∈ seen → (dedupeGo seen l).filter (fun c => decide (chunkKey c = k)) = []) ∧
      (k ∉ seen → (dedupeGo seen l).filter (fun c => decide (chunkKey c = k)) =
        (l.filter (fun c => decide (chunkKey c = k))).take 1) := by
  induction l with
  | nil => intro seen k; constructor <;> intro <;> simp [dedupeGo]
  | cons c rest ih =>
    intro seen k
    constructor
    · intro hk
      simp only [dedupeGo]
      by_cases h : chunkKey c ∈ seen
      · rw [if_pos h]
        exact (ih seen k).1 hk
      · rw [if_neg h]
        have hne : chunkKey c ≠ k := fun he => h (he ▸ hk)
        simp only [List.filter_cons, hne, decide_eq_true_eq, if_neg hne]
        exact (ih (chunkKey c :: seen) k).1 (List.mem_cons_of_mem _ hk)
    · intro hk
      simp only [dedupeGo]
      by_cases h : chunkKey c ∈ seen
      · rw [if_pos h]
        have hne : chunkKey c ≠ k := fun he => hk (he ▸ h)
        rw [(ih seen k).2 hk]
        simp only [List.filter_cons, decide_eq_true_eq, if_neg hne]
      · rw [if_neg h]
        by_cases hek : chunkKey c = k
        · have hk2 : k ∈ chunkKey c :: seen := by simp [hek]
          simp only [List.filter_cons, decide_eq_true_eq, if_pos hek]
          rw [(ih (chunkKey c :: seen) k).1 hk2]
          simp
        · simp only [List.filter_cons, decide_eq_true_eq, if_neg hek]
          have hknot : k ∉ chunkKey c :: seen := by
            intro hmem
            rcases List.mem_cons.mp hmem with he | hs
            · exact hek he.symm
            · exact hk hs
          exact (ih (chunkKey c :: seen) k).2 hknot

lemma dedupeGo_idem (l : List Chunk) :
    ∀ seen, dedupeGo seen (dedupeGo seen l) = dedupeGo seen l := by
  induction l with
  | nil => intro seen; simp [dedupeGo]
  | cons c rest ih =>
    intro seen
    by_cases h : chunkKey c ∈ seen
    · simp only [dedupeGo, if_pos h]
      exact ih seen
    · simp only [dedupeGo, if_neg h]
      rw [ih (chunkKey c :: seen)]

lemma dedupeGo_key_covered (l : List Chunk) :
    ∀ seen c, c ∈ l → chunkKey c ∈ seen ∨ chunkKey c ∈ (dedupeGo seen l).map chunkKey := by
  induction l with
  | nil => intro seen c hc; simp at hc
  | cons d rest ih =>
    intro seen c hc
    rcases List.mem_cons.mp hc with rfl | hc
    · by_cases h : chunkKey c ∈ seen
      · exact Or.inl h
      · right
        simp [dedupeGo, if_neg h]
    · by_cases h : chunkKey d ∈ seen
      · simpa [dedupeGo, if_pos h] using ih seen c hc
      · rcases ih (chunkKey d :: seen) c hc with hs | hs
        · rcases List.mem_cons.mp hs with he | he
          · right
            simp [dedupeGo, if_neg h, he]
          · exact Or.inl he
        · right
          simp [dedupeGo, if_neg h, hs]

end DedupeLemmas

/-- C7: for every raw score and metric the normalized score lies in
[0,1]; a non-finite raw score normalizes to 0; the cosine remap is
clamp01((raw - 0.2) / 0.8); a raw cosine similarity of 0.9 normalizes
to exactly 0.875. -/
theorem normalize_score_spec :
    (∀ (raw : JSNum) (metric : Metric),
      0 ≤ normalizeScore raw metric ∧ normalizeScore raw metric ≤ 1) ∧
    (∀ metric : Metric, normalizeScore none metric = 0) ∧
    (∀ q : ℚ, normalizeScore (some q) Metric.cosine = clampQ ((q - 0.2) / 0.8)) ∧
    normalizeScore (some 0.9) Metric.cosine = 0.875 := by
  refine ⟨fun raw metric => ?_, fun metric => rfl, fun q => rfl, by norm_num [normalizeScore]⟩
  rcases raw with _ | q
  · simp [normalizeScore]
  · rcases metric <;>
      exact ⟨le_max_left 0 _, max_le (by norm_num) (min_le_left 1 _)⟩

/-- C3: the years score is 1 when the job specifies no required years,
0 when years are required but none were extractable from the resume,
and otherwise banded by the resume/required ratio; in particular
requiredYears 5 with resumeYears 3 scores 0.7. -/
theorem years_score_spec :
    (∀ resumeYears : Option ℕ, computeYearsScore none resumeYears = 1) ∧
    (∀ req : ℕ, 1 ≤ req → computeYearsScore (some req) none = 0) ∧
    (∀ req ry : ℕ, 1 ≤ req →
      ((1 : ℚ) ≤ (ry : ℚ) / (req : ℚ) → computeYearsScore (some req) (some ry) = 1) ∧
      ((0.8 : ℚ) ≤ (ry : ℚ) / (req : ℚ) → (ry : ℚ) / (req : ℚ) < 1 →
        computeYearsScore (some req) (some ry) = 0.9) ∧
      ((0.6 : ℚ) ≤ (ry : ℚ) / (req : ℚ) → (ry : ℚ) / (req : ℚ) < 0.8 →
        computeYearsScore (some req) (some ry) = 0.7) ∧
      ((ry : ℚ) / (req : ℚ) < 0.6 →
        computeYearsScore (some req) (some ry) = max 0 ((ry : ℚ) / (req : ℚ) * 0.8))) ∧
    computeYearsScore (some 5) (some 3) = 0.7 := by
  refine ⟨fun _ => rfl, fun req hreq => ?_, fun req ry hreq => ?_, ?_⟩
  · have : req ≠ 0 := Nat.one_le_iff_ne_zero.mp hreq
    simp [computeYearsScore, this]
  · have hne : req ≠ 0 := Nat.one_le_iff_ne_zero.mp hreq
    refine ⟨fun h1 => ?_, fun h8 h1 => ?_, fun h6 h8 => ?_, fun h6 => ?_⟩
    · simp [computeYearsScore, hne, h1]
    · simp [computeYearsScore, hne, not_le.mpr h1, h8]
    · have h1 : ¬ (1 : ℚ) ≤ (ry : ℚ) / (req : ℚ) :=
        not_le.mpr (h8.trans_le (by norm_num))
      simp [computeYearsScore, hne, h1, not_le.mpr h8, h6]
    · have h8 : (ry : ℚ) / (req : ℚ) < 0.8 := h6.trans_le (by norm_num)
      have h1 : ¬ (1 : ℚ) ≤ (ry : ℚ) / (req : ℚ) :=
        not_le.mpr (h8.trans_le (by norm_num))
      simp [computeYearsScore, hne, h1, not_le.mpr h8, not_le.mpr h6]
  · norm_num [computeYearsScore]

/-- C10: the deduplication result does not depend on the threshold
argument at all, and a chunk is only ever dropped in favour of a kept
chunk whose normalized-snippet hash is equal. -/
theorem dedupe_threshold_independent :
    (∀ (chunks : List Chunk) (t1 t2 : ℚ),
      deduplicateChunks chunks t1 = deduplicateChunks chunks t2) ∧
    (∀ (chunks : List Chunk) (t : ℚ) (c : Chunk), c ∈ chunks →
      ∃ d ∈ deduplicateChunks chunks t, chunkKey d = chunkKey c) := by
  refine ⟨fun chunks t1 t2 => rfl, fun chunks t c hc => ?_⟩
  rcases dedupeGo_key_covered chunks [] c hc with h | h
  · simp at h
  · rcases List.mem_map.mp h with ⟨d, hd, hkey⟩
    exact ⟨d, hd, hkey⟩

/-- C8: deduplication is an order-preserving stable filter (a sublist of
the input) keeping exactly the first chunk of each distinct
normalized-snippet hash, so the hashes of the output are pairwise
distinct; it never increases the length, and it is idempotent. -/
theorem dedupe_spec :
    ∀ (chunks : List Chunk) (t : ℚ),
      List.Sublist (deduplicateChunks chunks t) chunks ∧
      ((deduplicateChunks chunks t).map chunkKey).Nodup ∧
      (∀ k : ℤ, (deduplicateChunks chunks t).filter (fun c => decide (chunkKey c = k)) =
        (chunks.filter (fun c => decide (chunkKey c = k))).take 1) ∧
      (deduplicateChunks chunks t).length ≤ chunks.length ∧
      deduplicateChunks (deduplicateChunks chunks t) t = deduplicateChunks chunks t := by
  intro chunks t
  refine ⟨dedupeGo_sublist chunks [], dedupeGo_keys_nodup chunks [],
    fun k => (dedupeGo_filter_key chunks [] k).2 (by simp),
    (dedupeGo_sublist chunks []).length_le, dedupeGo_idem chunks []⟩

section MmrLemmas

lemma pickBestGo_len (l : List Chunk) :
    ∀ (lambda : ℚ) (sel : List Chunk) (b : Chunk) (bs : ℚ) (acc : List Chunk),
      (pickBestGo lambda sel b bs acc l).2.length = acc.length + l.length := by
  induction l with
  | nil => intro lambda sel b bs acc; simp [pickBestGo]
  | cons d rest ih =>
    intro lambda sel b bs acc
    simp only [pickBestGo]
    by_cases h : bs < mmrScore lambda sel d
    · rw [if_pos h, ih]
      simp only [List.length_cons]
      omega
    · rw [if_neg h, ih]
      simp only [List.length_cons]
      omega

lemma mmrLoop_len (lambda : ℚ) :
    ∀ (need : ℕ) (sel rem : List Chunk),
      (mmrLoop lambda need sel rem).length = sel.length + min need rem.length := by
  intro need
  induction need with
  | zero =>
    intro sel rem
    cases rem <;> simp [mmrLoop]
  | succ n ih =>
    intro sel rem
    cases rem with
    | nil => simp [mmrLoop]
    | cons h t =>
      simp only [mmrLoop]
      rcases hpb : pickBestGo lambda sel h (mmrScore lambda sel h) [] t with ⟨best, others⟩
      have hlen : others.length = t.length := by
        have := pickBestGo_len t lambda sel h (mmrScore lambda sel h) []
        rw [hpb] at this
        simpa using this
      rw [ih (sel ++ [best]) others, hlen]
      simp only [List.length_append, List.length_cons, List.length_nil]
      omega

end MmrLemmas

/-- Chunk used by the counterexample to C6. -/
def cexChunk : Chunk := ⟨"c1", "text", 1⟩

/-- C6 counterexample: with topK = 0 and a non-empty pool, mmrSelect
still seeds the selection with the top chunk before checking the limit,
so it returns one chunk and not min(0, length) = 0 of them. -/
theorem mmr_select_counterexample :
    (mmrSelect [cexChunk] 0 (0.6 : ℚ)).length ≠ min 0 ([cexChunk] : List Chunk).length := by
  unfold mmrSelect
  rw [if_neg (by norm_num)]
  obtain ⟨a, ha⟩ :
      ∃ a, List.mergeSort [cexChunk] (fun a b => decide (b.score ≤ a.score)) = [a] :=
    List.length_eq_one.mp (List.length_mergeSort [cexChunk])
  rw [ha]
  simp [mmrLoop]

/-- C6 amended: mmrSelect returns min(topK, length) chunks for every
topK at least 1, and the pool unchanged when it is not larger than
topK; but for topK = 0 it returns min(1, length) chunks (the seeded top
chunk survives on a non-empty pool), not the empty list. -/
theorem mmr_select_spec :
    ∀ (chunks : List Chunk) (k : ℕ) (lambda : ℚ),
      (1 ≤ k → (mmrSelect chunks k lambda).length = min k chunks.length) ∧
      (chunks.length ≤ k → mmrSelect chunks k lambda = chunks) ∧
      (mmrSelect chunks 0 lambda).length = min 1 chunks.length := by
  intro chunks k lambda
  refine ⟨fun hk => ?_, fun hle => ?_, ?_⟩
  · by_cases hle : chunks.length ≤ k
    · rw [mmrSelect, if_pos hle]
      omega
    · rw [mmrSelect, if_neg hle]
      rcases hs : List.mergeSort chunks (fun a b => decide (b.score ≤ a.score)) with _ | ⟨h, t⟩
      · have := @List.length_mergeSort _ (fun a b => decide (b.score ≤ a.score)) chunks
        rw [hs] at this
        simp only [List.length_nil] at this
        omega
      · have hlen : t.length + 1 = chunks.length := by
          have := @List.length_mergeSort _ (fun a b => decide (b.score ≤ a.score)) chunks
          rw [hs] at this
          simpa using this
        rw [mmrLoop_len]
        simp only [List.length_singleton]
        omega
  · rw [mmrSelect, if_pos hle]
  · by_cases h0 : chunks.length ≤ 0
    · rw [mmrSelect, if_pos h0]
      omega
    · rw [mmrSelect, if_neg h0]
      rcases hs : List.mergeSort chunks (fun a b => decide (b.score ≤ a.score)) with _ | ⟨h, t⟩
      · have := @List.length_mergeSort _ (fun a b => decide (b.score ≤ a.score)) chunks
        rw [hs] at this
        simp only [List.length_nil] at this
        omega
      · rw [mmrLoop_len]
        simp only [List.length_singleton]
        omega

section YearsLemmas

lemma foldl_max_init_le (l : List ℕ) : ∀ a : ℕ, a ≤ l.foldl max a := by
  induction l with
  | nil => intro a; simp
  | cons v rest ih =>
    intro a
    exact le_trans (le_max_left a v) (ih (max a v))

lemma foldl_max_mem_le (l : List ℕ) : ∀ a : ℕ, ∀ v ∈ l, v ≤ l.foldl max a := by
  induction l with
  | nil => intro a v hv; simp at hv
  | cons w rest ih =>
    intro a v hv
    rcases List.mem_cons.mp hv with rfl | hv
    · exact le_trans (le_max_right a v) (foldl_max_init_le rest (max a v))
    · exact ih (max a w) v hv

lemma foldl_max_mem (l : List ℕ) : ∀ a : ℕ, l.foldl max a = a ∨ l.foldl max a ∈ l := by
  induction l with
  | nil => intro a; simp
  | cons w rest ih =>
    intro a
    rcases ih (max a w) with h | h
    · rcases Nat.le_total a w with hw | hw
      · right
        rw [List.foldl_cons, h, max_eq_right hw]
        exact List.mem_cons_self _ _
      · left
        rw [List.foldl_cons, h, max_eq_left hw]
    · right
      exact List.mem_cons_of_mem _ h

lemma validYearCandidates_pos {chars : List Char} {v : ℕ}
    (hv : v ∈ validYearCandidates chars) : 0 < v := by
  have := List.of_mem_filter hv
  simp only [Bool.and_eq_true, decide_eq_true_eq] at this
  exact this.1

lemma maxPatternYears_spec {chars : List Char} (hne : validYearCandidates chars ≠ []) :
    0 < maxPatternYears chars ∧ maxPatternYears chars ∈ validYearCandidates chars ∧
      ∀ v ∈ validYearCandidates chars, v ≤ maxPatternYears chars := by
  obtain ⟨v, hv⟩ := List.exists_mem_of_ne_nil _ hne
  have hvpos : 0 < v := validYearCandidates_pos hv
  have hle : v ≤ maxPatternYears chars := foldl_max_mem_le _ 0 v hv
  have hpos : 0 < maxPatternYears chars := lt_of_lt_of_le hvpos hle
  have hmem : maxPatternYears chars ∈ validYearCandidates chars := by
    rcases foldl_max_mem (validYearCandidates chars) 0 with h | h
    · rw [maxPatternYears] at hpos
      omega
    · exact h
  exact ⟨hpos, hmem, fun w hw => foldl_max_mem_le _ 0 w hw⟩

end YearsLemmas

/-- C9: extractResumeYears is undefined (not zero) whenever no year
pattern, date range or month-year token matches; it never returns zero;
when accepted pattern candidates (positive, at most 50) exist it returns
their maximum and ignores the date heuristics; and a text stating 5
years of experience yields 5, whatever the current date. -/
theorem extract_resume_years_spec :
    (∀ (now : ℕ × ℕ) (txt : String),
      yearCandidates (jsToLower txt).data = [] →
      dateRangeMatches (jsToLower txt).data = [] →
      monthYearMatches (jsToLower txt).data = [] →
      extractResumeYears now (some txt) = none) ∧
    (∀ (now : ℕ × ℕ) (rawText : Option String), extractResumeYears now rawText ≠ some 0) ∧
    (∀ (now : ℕ × ℕ) (txt : String), validYearCandidates (jsToLower txt).data ≠ [] →
      extractResumeYears now (some txt) = some (maxPatternYears (jsToLower txt).data) ∧
      maxPatternYears (jsToLower txt).data ∈ validYearCandidates (jsToLower txt).data ∧
      ∀ v ∈ validYearCandidates (jsToLower txt).data,
        v ≤ maxPatternYears (jsToLower txt).data) ∧
    (∀ now : ℕ × ℕ, extractResumeYears now (some "5 years of experience") = some 5) := by
  refine ⟨fun now txt hcand hrange hmonth => ?_, fun now rawText => ?_,
    fun now txt hne => ?_, fun now => ?_⟩
  · by_cases he : txt = ""
    · simp [extractResumeYears, he]
    · have hvalid : validYearCandidates (jsToLower txt).data = [] := by
        rw [validYearCandidates, hcand]
        rfl
      have hmax : maxPatternYears (jsToLower txt).data = 0 := by
        rw [maxPatternYears, hvalid]
        rfl
      have hdates : extractYearsFromDates now (jsToLower txt).data = 0 := by
        rw [extractYearsFromDates, hrange]
        simp [hmonth]
      simp [extractResumeYears, he, hmax, hdates]
  · rcases rawText with _ | txt
    · simp [extractResumeYears]
    · by_cases he : txt = ""
      · simp [extractResumeYears, he]
      · simp only [extractResumeYears, he, if_false]
        set total : ℤ := if maxPatternYears (jsToLower txt).data = 0 then
          extractYearsFromDates now (jsToLower txt).data
        else ((maxPatternYears (jsToLower txt).data : ℤ)) with htotal
        by_cases hpos : 0 < total
        · rw [if_pos hpos]
          intro hcontr
          have := Option.some.inj hcontr
          omega
        · rw [if_neg hpos]
          exact Option.noConfusion
  · obtain ⟨hpos, hmem, hmax⟩ := maxPatternYears_spec hne
    have he : txt ≠ "" := by
      intro he
      apply hne
      rw [he]
      rfl
    have hz : ¬ maxPatternYears (jsToLower txt).data = 0 := by omega
    refine ⟨?_, hmem, hmax⟩
    simp only [extractResumeYears, he, if_false, hz, if_neg hz]
    rw [if_pos (by exact_mod_cast hpos)]
    simp
  · have he : ("5 years of experience" : String) ≠ "" := by decide
    have h5 : maxPatternYears ((jsToLower "5 years of experience")).data = 5 := by decide
    simp only [extractResumeYears, he, if_false, h5]
    norm_num
    rfl

/-- Evidence list used by the counterexample to C2: six chunks, all with
relevance 1/2 (below both 0.6 thresholds), where only the sixth snippet
contains the skill. -/
def cexEvidence : List Chunk :=
  [⟨"e1", "alpha one", 1/2⟩, ⟨"e2", "alpha two", 1/2⟩, ⟨"e3", "alpha three", 1/2⟩,
   ⟨"e4", "alpha four", 1/2⟩, ⟨"e5", "alpha five", 1/2⟩, ⟨"e6", "deployed on aws", 1/2⟩]

/-- C2 counterexample: the source only scans the first five evidence
chunks for a lexical match, so a skill whose only lexical evidence sits
in the sixth chunk is left unmatched although some evidence chunk
contains it, refuting the claimed if-and-only-if. -/
theorem skill_matcher_counterexample :
    ¬ (skillIsMatchedCore "AWS" ["AWS"] (some ⟨1/2, cexEvidence⟩) = true ↔
       ((0.6 ≤ meanTopN (cexEvidence.map Chunk.score) 3 ∧ 0.6 ≤ (1/2 : ℚ)) ∨
        cexEvidence.any
          (fun c => evidenceContainsSkillOrSynonym c.snippet "AWS" ["AWS"]) = true)) := by
  have hany : cexEvidence.any
      (fun c => evidenceContainsSkillOrSynonym c.snippet "AWS" ["AWS"]) = true := by decide
  have hkw : (cexEvidence.take 5).any
      (fun c => evidenceContainsSkillOrSynonym c.snippet "AWS" ["AWS"]) = false := by decide
  have hfalse : skillIsMatchedCore "AWS" ["AWS"] (some ⟨1/2, cexEvidence⟩) = false := by
    simp only [cexEvidence] at hkw ⊢
    simp only [skillIsMatchedCore]
    rw [if_neg (fun hc => absurd hc.2 (by norm_num))]
    exact hkw
  intro hiff
  have := hiff.mpr (Or.inr hany)
  rw [hfalse] at this
  exact Bool.false_ne_true this

/-- C2 amended: with a non-empty evidence list, a skill is matched iff
the mean of the first three evidence scores and the first evidence
score both reach 0.6, or one of the FIRST FIVE evidence snippets
lexically contains the skill or a synonym (the source scans only the
first five); empty evidence (or no semantic match) leaves the skill
missing; and the lexical path alone suffices, as with EC2 standing in
for AWS below both semantic thresholds. -/
theorem skill_matcher_amended :
    (∀ (skill : String) (synonyms : List String) (sim : ℚ) (e : Chunk) (rest : List Chunk),
      skillIsMatchedCore skill synonyms (some ⟨sim, e :: rest⟩) = true ↔
        ((0.6 ≤ meanTopN ((e :: rest).map Chunk.score) 3 ∧ 0.6 ≤ e.score) ∨
         ((e :: rest).take 5).any
           (fun c => evidenceContainsSkillOrSynonym c.snippet skill synonyms) = true)) ∧
    (∀ (skill : String) (synonyms : List String) (sim : ℚ),
      skillIsMatchedCore skill synonyms (some ⟨sim, []⟩) = false) ∧
    (∀ (skill : String) (synonyms : List String),
      skillIsMatchedCore skill synonyms none = false) ∧
    skillIsMatchedCore "AWS" ["AWS", "Amazon Web Services", "EC2"]
      (some ⟨0, [⟨"c1", "Deployed services on EC2", 3/10⟩]⟩) = true := by
  refine ⟨fun skill synonyms sim e rest => ?_, fun _ _ _ => rfl, fun _ _ => rfl, ?_⟩
  · simp only [skillIsMatchedCore]
    by_cases hc : 0.6 ≤ meanTopN ((e :: rest).map Chunk.score) 3 ∧ 0.6 ≤ e.score
    · rw [if_pos hc]
      constructor
      · intro _
        exact Or.inl hc
      · intro _
        rfl
    · rw [if_neg hc]
      constructor
      · intro hkw
        exact Or.inr hkw
      · intro h
        rcases h with h | h
        · exact absurd h hc
        · exact h
  · simp only [skillIsMatchedCore]
    rw [if_neg (fun hc => absurd hc.2 (by norm_num))]
    decide

section SemanticLemmas

lemma weightAt_zero : weightAt 0 = 0.4 := by
  simp [weightAt, headWeights]

lemma weightAt_one : weightAt 1 = 0.25 := by
  simp [weightAt, headWeights]

lemma relevantOf_one : relevantOf [1] = [1] := by
  norm_num [relevantOf, clampQ, List.filter]

lemma relevantOf_two : relevantOf [1, 1/5] = [1, 1/5] := by
  norm_num [relevantOf, clampQ, List.filter]

lemma chunksToUse_one : chunksToUse [1] = [1] := by
  rw [chunksToUse, relevantOf_one]
  simp

lemma chunksToUse_two : chunksToUse [1, 1/5] = [1, 1/5] := by
  rw [chunksToUse, relevantOf_two]
  simp

lemma semanticMean_one : semanticMean [1] = 1 := by
  rw [semanticMean]
  norm_num [weightedSumGo, totalWeightGo, weightAt_zero]

lemma semanticMean_two : semanticMean [1, 1/5] = 9 / 13 := by
  rw [semanticMean]
  norm_num [weightedSumGo, totalWeightGo, weightAt_zero, weightAt_one]

lemma qualityBoost_one : qualityBoost [1] = 0 := by
  norm_num [qualityBoost, List.filter]

lemma qualityBoost_two : qualityBoost [1, 1/5] = 0 := by
  norm_num [qualityBoost, List.filter]

lemma coverageBoost_one : coverageBoost [1] = 1 / 300 := by
  rw [coverageBoost]
  norm_num

lemma coverageBoost_two : coverageBoost [1, 1/5] = 1 / 150 := by
  rw [coverageBoost]
  norm_num

lemma semantic_eval_one : computeSemanticScoreWithBoosts [1] = 1 := by
  simp only [computeSemanticScoreWithBoosts, relevantOf_one, chunksToUse_one,
    semanticMean_one, qualityBoost_one, coverageBoost_one,
    List.length_cons, List.length_nil]
  norm_num

lemma semantic_eval_two : computeSemanticScoreWithBoosts [1, 1/5] = 1363 / 1950 := by
  simp only [computeSemanticScoreWithBoosts, relevantOf_two, chunksToUse_two,
    semanticMean_two, qualityBoost_two, coverageBoost_two,
    List.length_cons, List.length_nil]
  norm_num

lemma clampQ_ge_rel {c : ℚ} (h : 0.2 ≤ c) : 0.2 ≤ clampQ c :=
  le_trans (le_min (by norm_num) h) (le_max_right 0 _)

lemma relevantOf_append_rel (l : List ℚ) {c : ℚ} (h : 0.2 ≤ c) :
    relevantOf (l ++ [c]) = relevantOf l ++ [clampQ c] := by
  have hc : decide ((0.2 : ℚ) ≤ clampQ c) = true := decide_eq_true (clampQ_ge_rel h)
  simp [relevantOf, List.filter_append, List.filter_cons, hc]

lemma take20_min (r : List ℚ) : r.take (min 20 r.length) = r.take 20 := by
  rcases le_total r.length 20 with h | h
  · rw [min_eq_right h, List.take_length, List.take_of_length_le h]
  · rw [min_eq_left h]

lemma chunksToUse_take (ms : List ℚ) : chunksToUse ms = (relevantOf ms).take 20 := by
  rw [chunksToUse, take20_min]

lemma qualityBoost_nonneg (l : List ℚ) : 0 ≤ qualityBoost l := by
  rw [qualityBoost]
  by_cases h : 3 ≤ (l.filter (fun s => decide (0.7 ≤ s))).length
  · rw [if_pos h]
    exact le_min (by norm_num) (by positivity)
  · rw [if_neg h]

lemma qualityBoost_le_cap (l : List ℚ) : qualityBoost l ≤ 0.2 := by
  rw [qualityBoost]
  by_cases h : 3 ≤ (l.filter (fun s => decide (0.7 ≤ s))).length
  · rw [if_pos h]
    exact min_le_left _ _
  · rw [if_neg h]
    norm_num

lemma qualityBoost_gate (l : List ℚ)
    (h : (l.filter (fun s => decide (0.7 ≤ s))).length < 3) : qualityBoost l = 0 := by
  rw [qualityBoost, if_neg (by omega)]

lemma coverageBoost_formula (l : List ℚ) :
    coverageBoost l = min (l.length : ℚ) 15 / 15 * 0.05 := by
  rw [coverageBoost]
  rcases le_total (l.length : ℚ) 15 with h | h
  · rw [min_eq_left h, min_eq_right]
    calc ((l.length : ℚ) / 15) * 0.05 ≤ 1 * 0.05 := by
          apply mul_le_mul_of_nonneg_right _ (by norm_num)
          rw [div_le_one (by norm_num)]
          exact h
      _ = 0.05 := by norm_num
  · rw [min_eq_right h]
    have h1 : (0.05 : ℚ) ≤ (l.length : ℚ) / 15 * 0.05 := by
      calc (0.05 : ℚ) = 1 * 0.05 := by norm_num
        _ ≤ (l.length : ℚ) / 15 * 0.05 := by
            apply mul_le_mul_of_nonneg_right _ (by norm_num)
            rw [le_div_iff (by norm_num)]
            linarith
    rw [min_eq_left h1]
    norm_num

lemma coverageBoost_le_cap (l : List ℚ) : coverageBoost l ≤ 0.05 := min_le_left _ _

lemma qualityBoost_append_le (r : List ℚ) (x : ℚ) :
    qualityBoost r ≤ qualityBoost (r ++ [x]) := by
  simp only [qualityBoost, List.filter_append, List.length_append]
  by_cases h3 : 3 ≤ (r.filter (fun s => decide (0.7 ≤ s))).length
  · rw [if_pos h3, if_pos (by omega)]
    apply min_le_min (le_refl _)
    push_cast
    have h1 : (0 : ℚ) ≤ (([x].filter (fun s => decide (0.7 ≤ s))).length : ℚ) := by positivity
    have h2 : (0 : ℚ) ≤ (([x].filter (fun s => decide (0.85 ≤ s))).length : ℚ) := by positivity
    have h4 : (0 : ℚ) ≤ (([x].filter (fun s => decide (0.9 ≤ s))).length : ℚ) := by positivity
    linarith
  · rw [if_neg h3]
    by_cases h3' : 3 ≤ (r.filter (fun s => decide (0.7 ≤ s))).length +
        (([x].filter (fun s => decide (0.7 ≤ s))).length)
    · rw [if_pos h3']
      exact le_min (by norm_num) (by positivity)
    · rw [if_neg h3']

lemma coverageBoost_append_le (r : List ℚ) (x : ℚ) :
    coverageBoost r ≤ coverageBoost (r ++ [x]) := by
  simp only [coverageBoost, List.length_append, List.length_cons, List.length_nil]
  apply min_le_min (le_refl _)
  apply mul_le_mul_of_nonneg_right _ (by norm_num)
  apply (div_le_div_right (by norm_num)).mpr
  push_cast
  linarith

end SemanticLemmas

open Classical in
/-- Structure of the semantic score on a list with at least one relevant
chunk: the clamped sum of weighted mean, quality boost and coverage
boost, except that a boosted sum above 0.9 on a mean below 0.7 is cut to
exactly 0.85; the quality boost is capped at 0.2 and vanishes below
three high-quality chunks; the coverage boost is proportional to
min(chunkCount, 15)/15 and capped at 0.05. -/
def SemanticScoreSpec (ms : List ℚ) : Prop :=
  computeSemanticScoreWithBoosts ms =
    (if 0.9 < semanticMean (chunksToUse ms) + (qualityBoost (chunksToUse ms) : ℝ) +
          (coverageBoost (chunksToUse ms) : ℝ) ∧ semanticMean (chunksToUse ms) < 0.7
     then (0.85 : ℝ)
     else max 0 (min 1 (semanticMean (chunksToUse ms) + (qualityBoost (chunksToUse ms) : ℝ) +
       (coverageBoost (chunksToUse ms) : ℝ)))) ∧
  qualityBoost (chunksToUse ms) ≤ 0.2 ∧
  (((chunksToUse ms).filter (fun s => decide (0.7 ≤ s))).length < 3 →
    qualityBoost (chunksToUse ms) = 0) ∧
  coverageBoost (chunksToUse ms) = min ((chunksToUse ms).length : ℚ) 15 / 15 * 0.05 ∧
  coverageBoost (chunksToUse ms) ≤ 0.05

/-- C4: on every chunk list holding at least one chunk of relevance at
least 0.2, the semantic score follows the mean-plus-boosts structure
with the 0.85 anti-false-positive cut, the gated quality boost capped
at 0.2 and the coverage boost proportional to min(chunkCount, 15)/15
capped at 0.05. -/
theorem semantic_score_structure (ms : List ℚ) (h : ∃ s ∈ ms, 0.2 ≤ s) :
    SemanticScoreSpec ms := by
  obtain ⟨s, hs, hs2⟩ := h
  have hlen : ¬ ms.length = 0 := by
    intro h0
    rw [List.length_eq_zero] at h0
    subst h0
    simp at hs
  have hrel : ¬ (relevantOf ms).length = 0 := by
    intro h0
    rw [List.length_eq_zero] at h0
    have hmem : clampQ s ∈ relevantOf ms := by
      rw [relevantOf]
      apply List.mem_filter.mpr
      exact ⟨List.mem_map_of_mem clampQ hs, decide_eq_true (clampQ_ge_rel hs2)⟩
    rw [h0] at hmem
    simp at hmem
  refine ⟨?_, qualityBoost_le_cap _, qualityBoost_gate _, coverageBoost_formula _,
    coverageBoost_le_cap _⟩
  simp only [computeSemanticScoreWithBoosts, hlen, hrel, if_false]
  by_cases hc : 0.9 < semanticMean (chunksToUse ms) + (qualityBoost (chunksToUse ms) : ℝ) +
      (coverageBoost (chunksToUse ms) : ℝ) ∧ semanticMean (chunksToUse ms) < 0.7
  · rw [if_pos hc, if_pos hc]
    norm_num
  · rw [if_neg hc, if_neg hc]

/-- Witness for C4: the singleton list with relevance 1 satisfies the
hypothesis and the structure. -/
theorem semantic_score_structure_witness :
    (∃ s ∈ [(1 : ℚ)], 0.2 ≤ s) ∧ SemanticScoreSpec [1] :=
  ⟨⟨1, by norm_num⟩, semantic_score_structure [1] ⟨1, by norm_num⟩⟩

/-- C5 counterexample: appending the chunk of relevance 0.2 = 1/5 to the
singleton list of relevance 1 lowers the score from 1 to 1363/1950, so
adding a relevant chunk can strictly decrease the semantic score. -/
theorem semantic_monotone_counterexample :
    (0.2 : ℚ) ≤ 1/5 ∧
    computeSemanticScoreWithBoosts ([1] ++ [1/5]) < computeSemanticScoreWithBoosts [1] := by
  constructor
  · norm_num
  · have h2 : ([(1 : ℚ)] ++ [1/5]) = [1, 1/5] := rfl
    rw [h2, semantic_eval_one, semantic_eval_two]
    norm_num

/-- C5 amended: the score of the empty list is 0, and appending one more
chunk of relevance at least 0.2 never decreases the quality or coverage
boosts; the full returned score, however, is not monotone: appending
such a chunk can strictly decrease it (it lowers the weighted mean). -/
theorem semantic_score_empty_monotone :
    computeSemanticScoreWithBoosts [] = 0 ∧
    (∀ (l : List ℚ) (c : ℚ), 0.2 ≤ c →
      qualityBoost (chunksToUse l) ≤ qualityBoost (chunksToUse (l ++ [c])) ∧
      coverageBoost (chunksToUse l) ≤ coverageBoost (chunksToUse (l ++ [c]))) ∧
    ∃ (l : List ℚ) (c : ℚ), 0.2 ≤ c ∧
      computeSemanticScoreWithBoosts (l ++ [c]) < computeSemanticScoreWithBoosts l := by
  refine ⟨by simp [computeSemanticScoreWithBoosts], fun l c hc => ?_, ?_⟩
  · rw [chunksToUse_take, chunksToUse_take, relevantOf_append_rel l hc]
    rcases le_or_lt 20 (relevantOf l).length with h20 | h20
    · rw [List.take_append_of_le_length h20]
      exact ⟨le_refl _, le_refl _⟩
    · rw [List.take_of_length_le (by omega),
        List.take_of_length_le (by simp; omega)]
      exact ⟨qualityBoost_append_le _ _, coverageBoost_append_le _ _⟩
  · refine ⟨[1], 1/5, by norm_num, ?_⟩
    have h2 : ([(1 : ℚ)] ++ [1/5]) = [1, 1/5] := rfl
    rw [h2, semantic_eval_one, semantic_eval_two]
    norm_num

section MatchLemmas

lemma keyword_partition (jd : JDRecord) (sem : String → Option SemanticMatch) :
    (∀ skill : String,
      ¬(skill ∈ (computeKeywordScore jd sem).matchedSkills ∧
        skill ∈ (computeKeywordScore jd sem).missingSkills)) ∧
    (∀ skill : String,
      (skill ∈ (computeKeywordScore jd sem).matchedSkills ∨
        skill ∈ (computeKeywordScore jd sem).missingSkills) ↔
      skill ∈ jd.topSkills ++ jd.generalSkills) := by
  by_cases hempty : jd.topSkills.length = 0 ∧ jd.generalSkills.length = 0
  · have h1 := List.length_eq_zero.mp hempty.1
    have h2 := List.length_eq_zero.mp hempty.2
    simp [computeKeywordScore, hempty, h1, h2]
  · simp only [computeKeywordScore, if_neg hempty]
    constructor
    · intro skill hsk
      obtain ⟨hm, hms⟩ := hsk
      have hm2 := (List.mem_filter.mp hm).2
      have hms2 := (List.mem_filter.mp hms).2
      rw [hm2] at hms2
      simp at hms2
    · intro skill
      constructor
      · intro hsk
        rcases hsk with hm | hm
        · exact (List.mem_filter.mp hm).1
        · exact (List.mem_filter.mp hm).1
      · intro hall
        by_cases hp : skillMatchedIn jd sem skill = true
        · exact Or.inl (List.mem_filter.mpr ⟨hall, hp⟩)
        · refine Or.inr (List.mem_filter.mpr ⟨hall, ?_⟩)
          simp [hp]

lemma jsRound_percent_bounds (x : ℝ) :
    0 ≤ jsRound (max 0 (min 1 x) * 100) ∧ jsRound (max 0 (min 1 x) * 100) ≤ 100 := by
  have hy0 : (0 : ℝ) ≤ max 0 (min 1 x) := le_max_left _ _
  have hy1 : max 0 (min 1 x) ≤ 1 := max_le (by norm_num) (min_le_left _ _)
  constructor
  · rw [jsRound]
    apply Int.le_floor.mpr
    push_cast
    linarith
  · rw [jsRound]
    have hlt : max 0 (min 1 x) * 100 + 1 / 2 < (101 : ℤ) := by
      push_cast
      nlinarith
    have := Int.floor_lt.mpr hlt
    omega

end MatchLemmas

/-- C1: for every (successful) match computation with the default
weights, the final percent is the half-up rounding of 100 times the
clamped weighted sum of the three signal scores, hence an integer
between 0 and 100; the default weights sum to 1; and each required
skill (top or general) lands in exactly one of matchedSkills and
missingSkills. -/
theorem calculate_match_invariants :
    ∀ (jd : JDRecord) (sem : String → Option SemanticMatch)
      (normalizedMatches : List ℚ) (resumeYears : Option ℕ),
      (0 ≤ (calculateMatchCore defaultWeights jd normalizedMatches sem resumeYears).finalPercent ∧
       (calculateMatchCore defaultWeights jd normalizedMatches sem resumeYears).finalPercent ≤ 100) ∧
      (calculateMatchCore defaultWeights jd normalizedMatches sem resumeYears).finalPercent =
        jsRound (100 * max 0 (min 1
          ((0.4 : ℝ) * computeSemanticScoreWithBoosts (normalizedMatches.take 20) +
           (0.55 : ℝ) * ((computeKeywordScore jd sem).keywordScore : ℝ) +
           (0.05 : ℝ) * (computeYearsScore jd.requiredYears resumeYears : ℝ)))) ∧
      ((0.4 : ℚ) + 0.55 + 0.05 = 1) ∧
      (∀ skill : String,
        ¬(skill ∈ (calculateMatchCore defaultWeights jd normalizedMatches sem
            resumeYears).matchedSkills ∧
          skill ∈ (calculateMatchCore defaultWeights jd normalizedMatches sem
            resumeYears).missingSkills)) ∧
      (∀ skill : String,
        (skill ∈ (calculateMatchCore defaultWeights jd normalizedMatches sem
            resumeYears).matchedSkills ∨
         skill ∈ (calculateMatchCore defaultWeights jd normalizedMatches sem
            resumeYears).missingSkills) ↔
        skill ∈ jd.topSkills ++ jd.generalSkills) := by
  intro jd sem normalizedMatches resumeYears
  have hcast4 : ((0.4 : ℚ) : ℝ) = (0.4 : ℝ) := by norm_num
  have hcast55 : ((0.55 : ℚ) : ℝ) = (0.55 : ℝ) := by norm_num
  have hcast05 : ((0.05 : ℚ) : ℝ) = (0.05 : ℝ) := by norm_num
  refine ⟨?_, ?_, by norm_num, ?_, ?_⟩
  · simp only [calculateMatchCore]
    exact jsRound_percent_bounds _
  · simp only [calculateMatchCore, defaultWeights, hcast4, hcast55, hcast05]
    rw [mul_comm]
  · simp only [calculateMatchCore]
    exact (keyword_partition jd sem).1
  · simp only [calculateMatchCore]
    exact (keyword_partition jd sem).2
